import Mathlib

/-!
Verification of the core logic of the guest-the-number program:
the card constant `CARDS_NUMS` and the answer decoder `get_result`.
A Python string is modelled as its list of characters.
-/

namespace GuessTheNumber

/-- Numeric card lists exactly as the bracketed literals inside the source
constant `CARDS_NUMS` (before the surrounding `list(map(str, ...))`). -/
def CARDS_NUMS_vals : List (List Nat) := [
  [1, 3, 5, 7, 9, 11, 13, 15, 17, 19, 21, 23, 25, 27, 29, 31, 33, 35, 37, 39,
   41, 43, 45, 47, 49, 51, 53, 55, 57, 59, 61, 63],
  [2, 3, 6, 7, 10, 11, 14, 15, 18, 19, 22, 23, 26, 27, 30, 31, 34, 35, 38, 39,
   42, 43, 46, 47, 50, 51, 54, 55, 58, 59, 62, 63],
  [4, 5, 6, 7, 12, 13, 14, 15, 20, 21, 22, 23, 28, 29, 30, 31, 36, 37, 38, 39,
   44, 45, 46, 47, 52, 53, 54, 55, 60, 61, 62, 63],
  [8, 9, 10, 11, 12, 13, 14, 15, 24, 25, 26, 27, 28, 29, 30, 31, 40, 41, 42, 43,
   44, 45, 46, 47, 56, 57, 58, 59, 60, 61, 62, 63],
  [16, 17, 18, 19, 20, 21, 22, 23, 24, 25, 26, 27, 28, 29, 30, 31, 48, 49, 50, 51,
   52, 53, 54, 55, 56, 57, 58, 59, 60, 61, 62, 63],
  [32, 33, 34, 35, 36, 37, 38, 39, 40, 41, 42, 43, 44, 45, 46, 47, 48, 49, 50, 51,
   52, 53, 54, 55, 56, 57, 58, 59, 60, 61, 62, 63]]

/-- The source constant `CARDS_NUMS`: each numeric card list mapped through
`str`, mirroring `list(map(str, [...]))`. -/
def CARDS_NUMS : List (List String) :=
  CARDS_NUMS_vals.map (fun l => l.map toString)

/-- Helper for `pySlice`: walks the list keeping an element whenever the
countdown reaches 0, then restarts the countdown at `step - 1`. -/
def strideAux : List Char → Nat → Nat → List Char
  | [], _, _ => []
  | c :: rest, step, 0 => c :: strideAux rest step (step - 1)
  | _ :: rest, step, k + 1 => strideAux rest step k

/-- Python extended slice `s[::step]` for a positive `step`: the characters at
indices 0, step, 2*step, ... in order.  The source applies it with step `+1`. -/
def pySlice (s : List Char) (step : Nat) : List Char := strideAux s step 0

/-- The accumulation loop of `get_result`: `decimal = 0`, then for each
index/character pair, add `2 ** i` when the character equals the character 1. -/
def decodeLoop (s : List Char) : Nat :=
  (List.enum s).foldl (fun decimal p => if p.2 = '1' then decimal + 2 ^ p.1 else decimal) 0

/-- The source decoder `GuessTheNumberGame.get_result`: apply the slice
`[::+1]` to the answer string, run the accumulation loop, render with `str`. -/
def get_result (binary_string : List Char) : String :=
  let binary_string := pySlice binary_string 1
  toString (decodeLoop binary_string)

/-- Numeric value computed by `get_result` before the final `str`. -/
def resultValue (s : List Char) : Nat := decodeLoop (pySlice s 1)

/-- Answers as the characters `process_answer` appends: the character 1 for
Yes and the character 0 for No. -/
def answersOfBools (bs : List Bool) : List Char :=
  bs.map (fun b => if b then '1' else '0')

/-- Element k of the honest answer sequence for target n: Yes exactly when
`str(n)` appears on card k of `CARDS_NUMS`. -/
def answerChar (n k : Nat) : Char :=
  if toString n ∈ CARDS_NUMS.getD k [] then '1' else '0'

/-- The full honest answer sequence for target n, card 0 through card 5. -/
def answersFor (n : Nat) : List Char := (List.range 6).map (answerChar n)

/-- Spec-side decoder, following the spec words: the sum over positions i of
`2 ^ i` when answer i is the character 1, with no reversal step. -/
def decode_spec (s : List Char) : Nat :=
  ∑ i ∈ Finset.range s.length, if s.getD i '0' = '1' then 2 ^ i else 0

/-- Horner form of the positional sum, used to reason about the loop. -/
def hornerValue : List Char → Nat
  | [] => 0
  | c :: rest => (if c = '1' then 1 else 0) + 2 * hornerValue rest

end GuessTheNumber

namespace GuessTheNumber

lemma pySlice_one (s : List Char) : pySlice s 1 = s := by
  unfold pySlice
  induction s with
  | nil => rfl
  | cons c rest ih => simpa [strideAux] using ih

lemma foldl_enumFrom (s : List Char) : ∀ (i acc : Nat),
    (List.enumFrom i s).foldl
      (fun decimal p => if p.2 = '1' then decimal + 2 ^ p.1 else decimal) acc
      = acc + 2 ^ i * hornerValue s := by
  induction s with
  | nil => intro i acc; simp [hornerValue]
  | cons c rest ih =>
    intro i acc
    simp only [List.enumFrom, List.foldl, hornerValue, ih (i + 1)]
    by_cases hc : c = '1' <;> simp [hc, pow_succ] <;> ring_nf

lemma decodeLoop_eq_horner (s : List Char) : decodeLoop s = hornerValue s := by
  have h := foldl_enumFrom s 0 0
  simpa [decodeLoop, List.enum] using h

lemma horner_eq_decode_spec (s : List Char) : hornerValue s = decode_spec s := by
  induction s with
  | nil => simp [hornerValue, decode_spec]
  | cons c rest ih =>
    have hcongr : ∀ i ∈ Finset.range rest.length,
        (if (c :: rest).getD (i + 1) '0' = '1' then 2 ^ (i + 1) else 0)
          = 2 * (if rest.getD i '0' = '1' then 2 ^ i else 0) := by
      intro i _
      by_cases h : rest.getD i '0' = '1' <;> simp [h, pow_succ] <;> ring_nf
    simp only [hornerValue, decode_spec, List.length_cons, ih]
    rw [Finset.sum_range_succ', Finset.sum_congr rfl hcongr, ← Finset.mul_sum]
    simp only [List.getD_cons_zero, pow_zero]
    exact Nat.add_comm _ _

lemma resultValue_eq_decode_spec (s : List Char) : resultValue s = decode_spec s := by
  rw [resultValue, pySlice_one, decodeLoop_eq_horner, horner_eq_decode_spec]

lemma horner_lt (s : List Char) : hornerValue s < 2 ^ s.length := by
  induction s with
  | nil => simp [hornerValue]
  | cons c rest ih =>
    simp only [hornerValue, List.length_cons, pow_succ]
    by_cases hc : c = '1' <;> simp [hc] <;> omega

lemma mem_card_iff (k : Nat) (hk : k < 6) (n : Nat) :
    n ∈ CARDS_NUMS_vals.getD k [] ↔ 1 ≤ n ∧ n ≤ 63 ∧ (n >>> k) &&& 1 = 1 := by
  have hb : ∀ m ∈ CARDS_NUMS_vals.getD k [], m ≤ 63 := by
    interval_cases k <;> decide
  by_cases hn : n < 64
  · have key : ∀ j < 6, ∀ m < 64,
        (m ∈ CARDS_NUMS_vals.getD j [] ↔ 1 ≤ m ∧ m ≤ 63 ∧ (m >>> j) &&& 1 = 1) := by
      decide
    exact key k hk n hn
  · constructor
    · intro hmem; exact absurd (hb n hmem) (by omega)
    · rintro ⟨-, h2, -⟩; omega

end GuessTheNumber

namespace GuessTheNumber

/-- C1: for every n in 1..63, the honest per-card answer sequence decodes
back to n; get_result renders exactly str(n). -/
theorem roundtrip_cards_decode (n : Nat) (h1 : 1 ≤ n) (h2 : n ≤ 63) :
    resultValue (answersFor n) = n ∧ get_result (answersFor n) = toString n := by
  have key : ∀ m < 64, 1 ≤ m → resultValue (answersFor m) = m := by decide
  have hv := key n (by omega) h1
  have hg : get_result (answersFor n) = toString (resultValue (answersFor n)) := rfl
  exact ⟨hv, by rw [hg, hv]⟩

theorem roundtrip_cards_decode_witness :
    1 ≤ 37 ∧ 37 ≤ 63 ∧
      (resultValue (answersFor 37) = 37 ∧ get_result (answersFor 37) = toString 37) :=
  ⟨by decide, by decide, roundtrip_cards_decode 37 (by decide) (by decide)⟩

/-- C2: on any 6-element boolean answer sequence, the decoder returns the sum
of 2 to the i over the true positions, and that value is at most 63. -/
theorem decode_contract (bs : List Bool) (h : bs.length = 6) :
    resultValue (answersOfBools bs)
        = ∑ i ∈ Finset.range 6, (if bs.getD i false then 2 ^ i else 0)
      ∧ resultValue (answersOfBools bs) ≤ 63 := by
  have key : ∀ a b c d e f : Bool,
      resultValue (answersOfBools [a, b, c, d, e, f])
          = ∑ i ∈ Finset.range 6, (if [a, b, c, d, e, f].getD i false then 2 ^ i else 0)
        ∧ resultValue (answersOfBools [a, b, c, d, e, f]) ≤ 63 := by decide
  obtain _ | ⟨a, bs⟩ := bs; · exact absurd h (by simp)
  obtain _ | ⟨b, bs⟩ := bs; · exact absurd h (by simp)
  obtain _ | ⟨c, bs⟩ := bs; · exact absurd h (by simp)
  obtain _ | ⟨d, bs⟩ := bs; · exact absurd h (by simp)
  obtain _ | ⟨e, bs⟩ := bs; · exact absurd h (by simp)
  obtain _ | ⟨f, bs⟩ := bs; · exact absurd h (by simp)
  obtain _ | ⟨g, bs⟩ := bs
  · exact key a b c d e f
  · exact absurd h (by simp)

theorem decode_contract_witness :
    ([true, false, true, false, false, false] : List Bool).length = 6 ∧
      (resultValue (answersOfBools [true, false, true, false, false, false])
          = ∑ i ∈ Finset.range 6,
              (if [true, false, true, false, false, false].getD i false then 2 ^ i else 0)
        ∧ resultValue (answersOfBools [true, false, true, false, false, false]) ≤ 63) :=
  ⟨by decide, decode_contract [true, false, true, false, false, false] (by decide)⟩

/-- C3: six duplicate-free card lists, and card k holds exactly the n in 1..63
whose bit k is set. -/
theorem cards_content (k : Nat) (hk : k < 6) (n : Nat) :
    CARDS_NUMS_vals.length = 6 ∧ (CARDS_NUMS_vals.getD k []).Nodup ∧
      (n ∈ CARDS_NUMS_vals.getD k [] ↔ 1 ≤ n ∧ n ≤ 63 ∧ (n >>> k) &&& 1 = 1) := by
  refine ⟨by decide, ?_, mem_card_iff k hk n⟩
  interval_cases k <;> decide

theorem cards_content_witness :
    2 < 6 ∧ (CARDS_NUMS_vals.length = 6 ∧ (CARDS_NUMS_vals.getD 2 []).Nodup ∧
      (5 ∈ CARDS_NUMS_vals.getD 2 [] ↔ 1 ≤ 5 ∧ 5 ≤ 63 ∧ (5 >>> 2) &&& 1 = 1)) :=
  ⟨by decide, cards_content 2 (by decide) 5⟩

/-- C4: exactly 6 cards, each displaying exactly 32 numbers. -/
theorem cards_shape (k : Nat) (hk : k < 6) :
    CARDS_NUMS.length = 6 ∧ (CARDS_NUMS.getD k []).length = 32 := by
  refine ⟨by decide, ?_⟩
  interval_cases k <;> decide

theorem cards_shape_witness :
    0 < 6 ∧ (CARDS_NUMS.length = 6 ∧ (CARDS_NUMS.getD 0 []).length = 32) :=
  ⟨by decide, cards_shape 0 (by decide)⟩

/-- C5: every n in 1..63 lies on some card, and 0 lies on none. -/
theorem cards_cover (n : Nat) (h1 : 1 ≤ n) (h2 : n ≤ 63) :
    (∃ k, k < 6 ∧ n ∈ CARDS_NUMS_vals.getD k []) ∧
      ∀ k, k < 6 → 0 ∉ CARDS_NUMS_vals.getD k [] := by
  constructor
  · have key : ∀ m < 64, 1 ≤ m →
        (decide (m ∈ CARDS_NUMS_vals.getD 0 []) || decide (m ∈ CARDS_NUMS_vals.getD 1 []) ||
         decide (m ∈ CARDS_NUMS_vals.getD 2 []) || decide (m ∈ CARDS_NUMS_vals.getD 3 []) ||
         decide (m ∈ CARDS_NUMS_vals.getD 4 []) || decide (m ∈ CARDS_NUMS_vals.getD 5 []))
          = true := by decide
    have hn := key n (by omega) h1
    simp only [Bool.or_eq_true, decide_eq_true_eq] at hn
    rcases hn with ((((h | h) | h) | h) | h) | h
    exacts [⟨0, by omega, h⟩, ⟨1, by omega, h⟩, ⟨2, by omega, h⟩,
            ⟨3, by omega, h⟩, ⟨4, by omega, h⟩, ⟨5, by omega, h⟩]
  · intro k hk
    have key0 : ∀ j < 6, 0 ∉ CARDS_NUMS_vals.getD j [] := by decide
    exact key0 k hk

theorem cards_cover_witness :
    1 ≤ 37 ∧ 37 ≤ 63 ∧
      ((∃ k, k < 6 ∧ 37 ∈ CARDS_NUMS_vals.getD k []) ∧
        ∀ k, k < 6 → 0 ∉ CARDS_NUMS_vals.getD k []) :=
  ⟨by decide, by decide, cards_cover 37 (by decide) (by decide)⟩

/-- C6: the slice step before the loop is a no-op, so get_result agrees on
every input with the straightforward positional decoder decode_spec. -/
theorem reversal_step_noop (s : List Char) :
    get_result s = toString (decode_spec s) := by
  have hg : get_result s = toString (resultValue s) := rfl
  rw [hg, resultValue_eq_decode_spec]

/-- C7: the decoder is total: on any input string it returns the decimal
rendering of some natural number, bounded by 2 to the input length. -/
theorem decoder_total (s : List Char) :
    ∃ d : Nat, get_result s = toString d ∧ d < 2 ^ s.length := by
  refine ⟨resultValue s, rfl, ?_⟩
  rw [resultValue, pySlice_one, decodeLoop_eq_horner]
  exact horner_lt s

/-- C8: the four specific decode values named by the spec. -/
theorem decode_edge_values :
    resultValue (answersOfBools [false, false, false, false, false, false]) = 0 ∧
    resultValue (answersOfBools [true, true, true, true, true, true]) = 63 ∧
    resultValue (answersOfBools [true, false, false, false, false, false]) = 1 ∧
    resultValue (answersOfBools [false, true, false, false, false, false]) = 2 := by
  decide

/-- C9: the decoder is order-sensitive: a 6-element sequence and a
permutation of it decode differently. -/
theorem decode_order_sensitive :
    ∃ s t : List Char, s.length = 6 ∧ s.Perm t ∧ resultValue s ≠ resultValue t := by
  refine ⟨['1', '0', '0', '0', '0', '0'], ['0', '1', '0', '0', '0', '0'],
    by decide, ?_, by decide⟩
  exact List.Perm.swap '0' '1' _

/-- C10: on any input string, position i contributes 2 to the i exactly when
character i is the character 1, everything else contributes 0; the empty
string decodes to 0. -/
theorem decode_lenient (s : List Char) :
    resultValue s = (∑ i ∈ Finset.range s.length, if s.getD i '0' = '1' then 2 ^ i else 0) ∧
      resultValue [] = 0 :=
  ⟨by rw [resultValue_eq_decode_spec]; rfl, rfl⟩

end GuessTheNumber
